import Mathlib

/-!
Verification development for the CaleProcure events scraper
(src/Caleprocure_events_scraper.py).

The Selenium driver is the external collaborator: every DOM query is
modelled as data handed to the embedded function (an `Option String` for
the raw text of an element that may or may not exist, a list of per-row
outcomes for a dynamically loaded table, a list of per-page row counts for
the paginated list).  The pure computations of the source -- text
normalisation, label lookup guards, the dictionary building, the global
row-range arithmetic of `process_all`, and the partial-result handling of
`main` -- are translated directly.
-/

namespace Caleprocure

/- ===================== text utilities ===================== -/

/-- Whitespace test used to model the Python regex class `\s` and
`str.strip` / `str.isspace`: the six ASCII whitespace characters plus the
Unicode whitespace characters Python recognises. -/
def pySpace (c : Char) : Bool :=
  [' ', '\t', '\n', '\r', '\x0b', '\x0c', '\x1c', '\x1d', '\x1e', '\x1f',
   '\x85', '\xa0', '\u1680', '\u2000', '\u2001', '\u2002', '\u2003',
   '\u2004', '\u2005', '\u2006', '\u2007', '\u2008', '\u2009', '\u200a',
   '\u2028', '\u2029', '\u202f', '\u205f', '\u3000'].contains c

/-- Drop leading whitespace (first half of Python `str.strip`). -/
def dropWhileWS (l : List Char) : List Char := l.dropWhile pySpace

/-- Drop trailing whitespace (second half of Python `str.strip`). -/
def dropTrailingWS (l : List Char) : List Char :=
  (l.reverse.dropWhile pySpace).reverse

/-- Python `str.strip()` on a character list. -/
def stripChars (l : List Char) : List Char := dropTrailingWS (dropWhileWS l)

/-- Python `str.strip()`. -/
def pyStrip (s : String) : String := ⟨stripChars s.data⟩

/-- Model of `re.sub(r"\s+", " ", v)` (Caleprocure_events_scraper.py line
68): every maximal run of whitespace becomes a single space.  The flag
records whether the previous character was part of a whitespace run. -/
def collapseAux : List Char → Bool → List Char
  | [], _ => []
  | c :: cs, inWs =>
    if pySpace c then
      if inWs then collapseAux cs true else ' ' :: collapseAux cs true
    else c :: collapseAux cs false

/-- Decides whether the first list is an initial segment of the second. -/
def leadsWith : List Char → List Char → Bool
  | [], _ => true
  | _ :: _, [] => false
  | p :: ps, c :: cs => p == c && leadsWith ps cs

/-- Python `str.startswith`, computed on the character list (the Lean
core `String.startsWith` does not reduce inside the kernel). -/
def pyStartsWith (s pre : String) : Bool := leadsWith pre.data s.data

/-- Python `str.lower`, computed on the character list; `Char.toLower`
covers ASCII, which is all the vocabulary compared against. -/
def pyToLower (s : String) : String := ⟨s.data.map Char.toLower⟩

/-- Python `c in s` membership of a character in a string. -/
def pyContains (s : String) (c : Char) : Bool := s.data.contains c

/-- Fuelled worker for `removeAll`; the fuel is the input length, which
suffices because every step consumes at least one character (the patterns
used in the source are non-empty constants). -/
def removeAllAux (pat : List Char) : Nat → List Char → List Char
  | 0, l => l
  | _ + 1, [] => []
  | n + 1, c :: cs =>
    if leadsWith pat (c :: cs) then removeAllAux pat n ((c :: cs).drop pat.length)
    else c :: removeAllAux pat n cs

/-- Python `s.replace(pat, "")`: removes every (left-to-right,
non-overlapping) occurrence of `pat`.  The source guards the call with
`if pat in s:`, which is redundant since replacing an absent pattern is
the identity. -/
def removeAll (pat s : String) : String := ⟨removeAllAux pat.data s.data.length s.data⟩

/-- Banner boilerplate stripped by the normalisers (lines 22-24). -/
def BANNER_SNIPPET : String :=
  "All businesses are encouraged to provide voluntary diversity data information in their CaleProcure profiles."

/-- Translation of `clean_text` (lines 62-69): `None`/empty input gives
`None`; otherwise the banner is removed, whitespace runs are collapsed to
single spaces, the ends are stripped, and an empty result gives `None`. -/
def clean_text (value : Option String) : Option String :=
  match value with
  | none => none
  | some s =>
    if s = "" then none
    else
      let v := removeAll BANNER_SNIPPET s
      let v : String := ⟨stripChars (collapseAux v.data false)⟩
      if v = "" then none else some v

/-- Line-break characters recognised by Python `str.splitlines`. -/
def isLineBreak (c : Char) : Bool :=
  ['\n', '\r', '\x0b', '\x0c', '\x1c', '\x1d', '\x1e', '\x85',
   '\u2028', '\u2029'].contains c

/-- Worker for `str.splitlines`: the accumulator holds the current line
reversed; a `\r\n` pair is one break.  (A trailing empty line that Python
would not emit is filtered away by the caller `clean_lines` anyway.) -/
def splitLinesAux : List Char → List Char → List (List Char)
  | [], cur => [cur.reverse]
  | '\r' :: '\n' :: rest, cur => cur.reverse :: splitLinesAux rest []
  | c :: rest, cur =>
    if isLineBreak c then cur.reverse :: splitLinesAux rest []
    else splitLinesAux rest (c :: cur)

/-- Translation of `clean_lines` (lines 71-76): remove the banner, split
into lines, strip each line, keep the non-empty ones. -/
def clean_lines (text : String) : List String :=
  if text = "" then []
  else
    let t := removeAll BANNER_SNIPPET text
    ((splitLinesAux t.data []).map (fun l => (⟨stripChars l⟩ : String))).filter
      (fun l => l ≠ "")

/- ===================== label vocabulary ===================== -/

/-- The fixed label vocabulary (lines 26-37). -/
def LABELS : List String :=
  ["Event ID", "Dept", "Dept:", "Department", "Format/Type", "Format/Type:",
   "Event Version", "Published Date", "Event End Date", "Event End Date:"]

/-- Python `s.rstrip(":")`: drop trailing colons. -/
def dropTrailingColons (s : String) : String :=
  ⟨(s.data.reverse.dropWhile (fun c => c == ':')).reverse⟩

/-- Translation of `is_label` (lines 250-252): strip the text, drop
trailing colons, and compare with every label treated the same way. -/
def is_label (text : String) : Bool :=
  let t := dropTrailingColons (pyStrip text)
  LABELS.any (fun l => t == dropTrailingColons l)

/-- Translation of `find_value_by_label` (lines 254-271).  The driver
query -- the first non-empty-text element following the first element
whose normalised text equals the label -- is the external collaborator;
`candidate` is the raw text of that element (`none` when the XPath lookup
raises `NoSuchElementException`). -/
def find_value_by_label (label : String) (candidate : Option String) : Option String :=
  match candidate with
  | none => none
  | some raw =>
    match clean_text (some raw) with
    | none => none
    | some txt =>
      if is_label txt then none
      else if LABELS.any (fun lab => (lab != label) && pyStartsWith txt lab) then none
      else some txt

/-- Model of `re.search(r"\d+", v)` (lines 308-310): the first maximal run
of decimal digits, if any. -/
def firstDigitRun : List Char → Option (List Char)
  | [] => none
  | c :: cs =>
    if c.isDigit then some (c :: cs.takeWhile Char.isDigit) else firstDigitRun cs

/-- The details page as seen by `extract_label_values`: the raw text of
the element carrying a `data-if-label` department attribute (if present),
and for each label string the raw text of the first non-empty element
following its first occurrence (the result of the XPath in
`find_value_by_label`). -/
structure DetailPage where
  deptSpan : Option String
  following : String → Option String

/-- The `label_map` dictionary of `extract_label_values` (lines 288-299)
in its insertion order. -/
def label_map : List (String × String) :=
  [("Event ID", "Event ID"), ("Dept:", "Dept"), ("Dept", "Dept"),
   ("Department", "Dept"), ("Format/Type:", "Format/Type"),
   ("Format/Type", "Format/Type"), ("Event Version", "Event Version"),
   ("Published Date", "Published Date"), ("Event End Date:", "Event End Date"),
   ("Event End Date", "Event End Date")]

/-- The per-key value transformation of `extract_label_values`
(lines 307-310): `Event Version` keeps only its first digit run when one
exists; every other key stores the looked-up value unchanged. -/
def elv_value (key v : String) : String :=
  if key == "Event Version" then
    match firstDigitRun v.data with
    | some d => (⟨d⟩ : String)
    | none => v
  else v

/-- One iteration of the `for label, key in label_map.items()` loop of
`extract_label_values` (lines 301-312): skip `Dept` synonyms once `Dept`
is present, look the label up, apply the digit extraction to
`Event Version`, and record the value only when the key is still absent. -/
def elv_step (p : DetailPage) (details : List (String × String))
    (lk : String × String) : List (String × String) :=
  if lk.2 == "Dept" && details.any (fun kv => kv.1 == "Dept") then details
  else
    match find_value_by_label lk.1 (p.following lk.1) with
    | none => details
    | some v =>
      if details.any (fun kv => kv.1 == lk.2) then details
      else details ++ [(lk.2, elv_value lk.2 v)]

/-- Translation of `extract_label_values` (lines 273-314).  The structural
`data-if-label` department path runs first and stores its cleaned text
without any further guard; the label map is then folded over.  The Python
dict is modelled as an insertion-ordered association list (the function
only ever adds fresh keys). -/
def extract_label_values (p : DetailPage) : List (String × String) :=
  let details : List (String × String) :=
    match clean_text p.deptSpan with
    | some v => [("Dept", v)]
    | none => []
  label_map.foldl (elv_step p) details

/- ===================== event name ===================== -/

/-- The three title locators tried by `get_event_name_from_details_page`
(lines 704-738): the `data-label='eventName'` element, the bold `h3`
heading, and the last non-empty element before the `Details` heading.
Each field is the raw text of that element when it exists. -/
structure TitleSources where
  dataLabelEventName : Option String
  h3Title : Option String
  beforeDetails : Option String

/-- One locator attempt of `get_event_name_from_details_page`: clean the
text and accept it unless it is empty or a generic heading. -/
def nameCandidate (raw : Option String) : Option String :=
  match raw with
  | none => none
  | some r =>
    match clean_text (some r) with
    | none => none
    | some t =>
      if pyToLower t != "event details" && pyToLower t != "details" then some t
      else none

/-- Translation of `get_event_name_from_details_page` (lines 704-738):
the three locators are tried in order. -/
def get_event_name_from_details_page (p : TitleSources) : Option String :=
  match nameCandidate p.dataLabelEventName with
  | some t => some t
  | none =>
    match nameCandidate p.h3Title with
    | some t => some t
    | none => nameCandidate p.beforeDetails

/-- The event-name computation of `extract_event_details` (lines 750-754):
details-page title first, then the cleaned list-row label, then the
sentinel.  Python falsiness (`if not event_name:`) identifies `None` and
the empty string, so the optional title is flattened to `""`. -/
def extract_event_name (p : TitleSources) (list_row_event_name : String) : String :=
  let n :=
    match get_event_name_from_details_page p with
    | some t => t
    | none => ""
  let n :=
    if n = "" then
      match clean_text (some list_row_event_name) with
      | some s => s
      | none => ""
    else n
  if n = "" then "Unknown Event Name" else n

/- ===================== contact / pre-bid ===================== -/

/-- Python dict assignment on an insertion-ordered association list:
overwrite in place when the key exists, append otherwise. -/
def dictSet (d : List (String × String)) (k v : String) : List (String × String) :=
  if d.any (fun kv => kv.1 == k) then
    d.map (fun kv => if kv.1 == k then (k, v) else kv)
  else d ++ [(k, v)]

/-- Python `pat in s` substring test. -/
def containsSub (pat s : String) : Bool :=
  s.data.tails.any (fun t => leadsWith pat.data t)

/-- Everything after the first colon of the string. -/
def afterFirstColon (s : String) : String :=
  ⟨(s.data.dropWhile (fun c => c != ':')).tail⟩

/-- Model of `line.split(":", 1)[1].strip() if ":" in line else ""`
(lines 354, 358, 416-432). -/
def colonValue (line : String) : String :=
  if pyContains line ':' then pyStrip (afterFirstColon line) else ""

/-- The contact-information root container as seen by
`extract_contact_info`: its rendered text and the target of a `mailto:`
link inside it, when one exists. -/
structure ContactRoot where
  text : String
  mailto : Option String

/-- Translation of `extract_contact_info` (lines 318-378).  The root
lookup (heading ancestor with a column/card/panel class, else the
immediate parent) is the external DOM query; `root = none` models the
`return {}` path.  The final loop re-cleans every value and deletes the
keys whose value cleans to nothing. -/
def extract_contact_info (root : Option ContactRoot) : List (String × String) :=
  match root with
  | none => []
  | some r =>
    let lines := clean_lines r.text
    let info : List (String × String) := []
    let info :=
      match lines.findIdx? (fun l => l == "Contact Information") with
      | none => info
      | some idx =>
        match (lines.drop (idx + 1)).head? with
        | none => info
        | some line =>
          if pyContains line ':' || containsSub "Pre Bid Conference" line then info
          else dictSet info "Contact Name" line
    let info := lines.foldl (fun info line =>
      let low := pyToLower line
      let info :=
        if pyStartsWith low "phone" then
          let val := colonValue line
          if val != "" then dictSet info "Phone" val else info
        else info
      if pyStartsWith low "email" then
        let val := colonValue line
        if val != "" then dictSet info "Email" val else info
      else info) info
    let info :=
      match r.mailto with
      | none => info
      | some href =>
        let email := pyStrip (removeAll "mailto:" href)
        if email != "" then
          dictSet info "Email" ⟨email.data.takeWhile (fun c => c != '?')⟩
        else info
    info.filterMap (fun kv => (clean_text (some kv.2)).map (fun cv => (kv.1, cv)))

/-- Translation of `extract_prebid` (lines 380-443).  The root container
found through the three title variants is the external DOM query; its
rendered text is the argument.  The final loop re-cleans every value and
deletes the keys whose value cleans to nothing. -/
def extract_prebid (root : Option String) : List (String × String) :=
  match root with
  | none => []
  | some rootText =>
    let lines := clean_lines rootText
    let pre := lines.foldl (fun pre line =>
      let low := pyToLower line
      if pyStartsWith low "mandatory" then
        let v := colonValue line
        if v != "" then dictSet pre "Mandatory" v else pre
      else if pyStartsWith low "date" then
        let v := colonValue line
        if v != "" then dictSet pre "Date" v else pre
      else if pyStartsWith low "time" then
        let v := colonValue line
        if v != "" then dictSet pre "Time" v else pre
      else if pyStartsWith low "location" then
        let v := colonValue line
        if v != "" then dictSet pre "Location" v else pre
      else if pyStartsWith low "comments" then
        let v := colonValue line
        if v != "" then dictSet pre "Comments" v else pre
      else pre) ([] : List (String × String))
    pre.filterMap (fun kv => (clean_text (some kv.2)).map (fun cv => (kv.1, cv)))

/- ===================== attachments ===================== -/

/-- One row of the attachments loop of `get_attachments` (lines 642-648):
`resolvedHref` is the raw `href` of the popup download link (`none` when
the row had no clickable trigger, the popup timed out, the link was
missing, or a row-level exception was swallowed).  The href is stripped
and appended only when non-empty, not the `#` placeholder, and not yet
present. -/
def att_step (attachments : List String) (resolvedHref : Option String) : List String :=
  match resolvedHref with
  | none => attachments
  | some raw =>
    let href := pyStrip raw
    if href != "" && href != "#" && !(attachments.contains href) then
      attachments ++ [href]
    else attachments

/-- Translation of the result accumulation of `get_attachments`
(lines 537-700): the per-row navigation is the external collaborator, so
an invocation is determined by the list of per-row resolved hrefs. -/
def get_attachments (rowHrefs : List (Option String)) : List String :=
  rowHrefs.foldl att_step []

/- ===================== traversal engine ===================== -/

/-- The check `end_index is not None and global_row >= end_index`
(line 835). -/
def reached_end (end_index : Option Nat) (g : Nat) : Bool :=
  match end_index with
  | some e => decide (e ≤ g)
  | none => false

/-- The check `end_index is not None and row_num > end_index` (line 858). -/
def past_end (end_index : Option Nat) (g : Nat) : Bool :=
  match end_index with
  | some e => decide (e < g)
  | none => false

/-- The inner `while i < len(rows)` loop of `process_all` (lines 833-910)
over one page with `n` remaining rows, starting from global counter `g`.
`visited` accumulates the global index assigned to every encountered row
(the counter is incremented before the skip check, line 851); `events`
accumulates the indices of the rows for which detail extraction is
attempted.  The model takes the row set as stable between the re-queries
and each in-range row as a well-formed data row, so the recoverable
external failure paths (shrunken row set, short rows, stuck interstitial,
row-level exceptions) do not fire.  The returned flag records whether one
of the `return all_events` statements ran, which terminates the whole
run and not just the page. -/
def row_loop (start_index : Nat) (end_index : Option Nat) (limit : Nat) :
    Nat → Nat → List Nat → List Nat → Nat × List Nat × List Nat × Bool
  | 0, g, visited, events => (g, visited, events, false)
  | n + 1, g, visited, events =>
    if reached_end end_index g then (g, visited, events, true)
    else if limit ≠ 0 ∧ limit ≤ events.length then (g, visited, events, true)
    else
      let g2 := g + 1
      if g2 < start_index then
        row_loop start_index end_index limit n g2 (visited ++ [g2]) events
      else if past_end end_index g2 then (g2, visited ++ [g2], events, true)
      else row_loop start_index end_index limit n g2 (visited ++ [g2]) (events ++ [g2])

/-- The outer `while True` page loop of `process_all` (lines 820-917):
one iteration per page, stopping on an inner `return`, on the
`max_pages` cap (checked against the 1-based page counter), or when
`click_next_if_available` finds no further page (the end of the `pages`
list). -/
def process_all_go (max_pages limit start_index : Nat) (end_index : Option Nat) :
    List Nat → Nat → Nat → List Nat → List Nat → List Nat × List Nat
  | [], _, _, visited, events => (visited, events)
  | n :: rest, page_idx, g, visited, events =>
    match row_loop start_index end_index limit n g visited events with
    | (g2, visited2, events2, stopped) =>
      if stopped then (visited2, events2)
      else if max_pages ≠ 0 ∧ max_pages ≤ page_idx + 1 then (visited2, events2)
      else process_all_go max_pages limit start_index end_index rest (page_idx + 1) g2
        visited2 events2

/-- Translation of `process_all` (lines 809-917) over a paginated list
described by the per-page row counts.  Returns the trace of global row
indices assigned to encountered rows and the list of indices of rows for
which extraction was attempted (the appended records). -/
def process_all (pages : List Nat) (max_pages limit start_index : Nat)
    (end_index : Option Nat) : List Nat × List Nat :=
  process_all_go max_pages limit start_index end_index pages 0 0 [] []

/- ===================== orchestrator fault model ===================== -/

/-- One page of the fault-injecting traversal model: its row count and
whether the page-level preamble of the loop body (lines 823-830, in
particular `goto_events_section`, whose `WebDriverWait` raises
`TimeoutException` on failure) succeeds.  These statements sit outside
the row-level `try`, so their exceptions escape `process_all`. -/
structure PageSpec where
  rows : Nat
  navOk : Bool

/-- The page loop of `process_all` with page-level navigation failures.
On a failing page the exception propagates: the Python local
`all_events` is discarded with the frame.  The `error` payload is a ghost
observer recording the records that had been appended up to that point;
it exists only so that the loss can be stated, and is not available to
the caller (see `main_results`). -/
def process_all_fallible_go (max_pages limit start_index : Nat) (end_index : Option Nat) :
    List PageSpec → Nat → Nat → List Nat → Except (List Nat) (List Nat)
  | [], _, _, events => .ok events
  | p :: rest, page_idx, g, events =>
    if p.navOk = false then .error events
    else
      match row_loop start_index end_index limit p.rows g [] events with
      | (g2, _, events2, stopped) =>
        if stopped then .ok events2
        else if max_pages ≠ 0 ∧ max_pages ≤ page_idx + 1 then .ok events2
        else process_all_fallible_go max_pages limit start_index end_index rest
          (page_idx + 1) g2 events2

/-- Fault-injecting translation of `process_all` (lines 809-917). -/
def process_all_fallible (pages : List PageSpec) (max_pages limit start_index : Nat)
    (end_index : Option Nat) : Except (List Nat) (List Nat) :=
  process_all_fallible_go max_pages limit start_index end_index pages 0 0 []

/-- The collection `main` serialises (lines 942-970): `results` is
initialised to `[]`, assigned only by a normal return of `process_all`,
and written in the `finally` block; when an exception escapes
`process_all`, the assignment never happens and the empty list is
written. -/
def main_results (r : Except (List Nat) (List Nat)) : List Nat :=
  match r with
  | .ok res => res
  | .error _ => []

/- ===================== concrete fixtures ===================== -/

/-- Details page whose structural department element carries the text of
another label and on which every label lookup fails. -/
def cexPage : DetailPage := ⟨some "Format/Type", fun _ => none⟩

/-- Details page without the structural department element on which only
the `Event Version` lookup resolves. -/
def evPage : DetailPage :=
  ⟨none, fun lab => if lab == "Event Version" then some "Version 7.2" else none⟩

/-- Contact root with a heading, a free-text name line and a phone line. -/
def contactRootFx : Option ContactRoot :=
  some ⟨"Contact Information\nJane Roe\nPhone: 123", none⟩

/-- Pre-bid root with a date line. -/
def prebidRootFx : Option String :=
  some "Pre Bid Conference\nDate: 01/02/2026"

/- ===================== supporting lemmas: clean_text ===================== -/

theorem clean_text_some_eq {s t : String} (h : clean_text (some s) = some t) :
    t = ⟨stripChars (collapseAux (removeAll BANNER_SNIPPET s).data false)⟩ := by
  simp only [clean_text] at h
  split at h
  · exact absurd h (by simp)
  · split at h
    · exact absurd h (by simp)
    · injection h with h2
      exact h2.symm

theorem clean_text_some_ne_empty {v : Option String} {t : String}
    (h : clean_text v = some t) : t ≠ "" := by
  match v with
  | none => simp [clean_text] at h
  | some s =>
    simp only [clean_text] at h
    split at h
    · exact absurd h (by simp)
    · split at h
      · exact absurd h (by simp)
      · next hne =>
        injection h with h2
        rw [← h2]
        exact hne

theorem mem_collapseAux {c : Char} :
    ∀ (l : List Char) (b : Bool), c ∈ collapseAux l b → pySpace c = true → c = ' ' := by
  intro l
  induction l with
  | nil => intro b h; simp [collapseAux] at h
  | cons a l ih =>
    intro b h hc
    simp only [collapseAux] at h
    by_cases ha : pySpace a = true
    · rw [if_pos ha] at h
      cases b with
      | true => exact ih true h hc
      | false =>
        simp only [Bool.false_eq_true, if_neg] at h
        rcases List.mem_cons.mp h with h1 | h1
        · exact h1
        · exact ih true h1 hc
    · rw [if_neg ha] at h
      rcases List.mem_cons.mp h with h1 | h1
      · exact absurd (h1 ▸ hc) ha
      · exact ih false h1 hc

theorem head?_collapseAux_true {c : Char} :
    ∀ l : List Char, (collapseAux l true).head? = some c → pySpace c = false := by
  intro l
  induction l with
  | nil => intro h; simp [collapseAux] at h
  | cons a l ih =>
    intro h
    by_cases ha : pySpace a = true
    · simp only [collapseAux, ha, if_true] at h
      exact ih h
    · simp only [collapseAux, ha, Bool.false_eq_true, if_false, List.head?_cons,
        Option.some_inj] at h
      rw [← h]
      exact Bool.of_not_eq_true ha

theorem chain'_collapseAux :
    ∀ (l : List Char) (b : Bool),
      (collapseAux l b).Chain' (fun x y => ¬(pySpace x = true ∧ pySpace y = true)) := by
  intro l
  induction l with
  | nil => intro b; simp [collapseAux]
  | cons a l ih =>
    intro b
    simp only [collapseAux]
    by_cases ha : pySpace a = true
    · rw [if_pos ha]
      cases b with
      | true => exact ih true
      | false =>
        simp only [Bool.false_eq_true, if_neg]
        refine List.chain'_cons'.mpr ⟨?_, ih true⟩
        intro y hy h2
        exact absurd (head?_collapseAux_true l hy) (by simp [h2.2])
    · rw [if_neg ha]
      refine List.chain'_cons'.mpr ⟨?_, ih false⟩
      intro y _ h2
      exact ha h2.1

theorem head?_dropWhile_ws {c : Char} :
    ∀ l : List Char, (l.dropWhile pySpace).head? = some c → pySpace c = false := by
  intro l
  induction l with
  | nil => intro h; simp at h
  | cons a l ih =>
    intro h
    by_cases ha : pySpace a = true
    · rw [List.dropWhile_cons_of_pos ha] at h
      exact ih h
    · rw [List.dropWhile_cons_of_neg ha] at h
      simp only [List.head?_cons, Option.some_inj] at h
      rw [← h]
      exact Bool.of_not_eq_true ha

theorem dropTrailingWS_append : ∀ l : List Char, ∃ t, l = dropTrailingWS l ++ t := by
  intro l
  refine ⟨(l.reverse.takeWhile pySpace).reverse, ?_⟩
  unfold dropTrailingWS
  conv_lhs => rw [← l.reverse_reverse, ← List.takeWhile_append_dropWhile (p := pySpace) (l := l.reverse)]
  rw [List.reverse_append]

theorem getLast?_dropTrailingWS_ws {c : Char} :
    ∀ l : List Char, (dropTrailingWS l).getLast? = some c → pySpace c = false := by
  intro l h
  unfold dropTrailingWS at h
  rw [List.getLast?_reverse] at h
  exact head?_dropWhile_ws l.reverse h

theorem mem_stripChars {c : Char} {l : List Char} (h : c ∈ stripChars l) : c ∈ l := by
  unfold stripChars dropTrailingWS dropWhileWS at h
  rw [List.mem_reverse] at h
  have h2 := (List.dropWhile_sublist _).mem h
  rw [List.mem_reverse] at h2
  exact (List.dropWhile_sublist _).mem h2

theorem chain'_stripChars {R : Char → Char → Prop} {l : List Char}
    (hsym : ∀ a b, R a b → R b a) (h : l.Chain' R) : (stripChars l).Chain' R := by
  unfold stripChars dropTrailingWS dropWhileWS
  have h1 : (l.dropWhile pySpace).Chain' R :=
    h.suffix (List.dropWhile_suffix _)
  have h2 : ((l.dropWhile pySpace).reverse).Chain' R := by
    rw [List.chain'_reverse]
    exact h1.imp (fun a b hab => hsym a b hab)
  have h3 : (((l.dropWhile pySpace).reverse).dropWhile pySpace).Chain' R :=
    h2.suffix (List.dropWhile_suffix _)
  rw [List.chain'_reverse]
  exact h3.imp (fun a b hab => hsym a b hab)

theorem head?_stripChars_ws {c : Char} {l : List Char}
    (h : (stripChars l).head? = some c) : pySpace c = false := by
  unfold stripChars at h
  obtain ⟨t, ht⟩ := dropTrailingWS_append (dropWhileWS l)
  cases hd : dropTrailingWS (dropWhileWS l) with
  | nil => rw [hd] at h; simp at h
  | cons x xs =>
    rw [hd] at h
    simp only [List.head?_cons, Option.some_inj] at h
    rw [hd] at ht
    have hh : (dropWhileWS l).head? = some x := by
      rw [ht]; rfl
    rw [← h]
    exact head?_dropWhile_ws l hh

theorem getLast?_stripChars_ws {c : Char} {l : List Char}
    (h : (stripChars l).getLast? = some c) : pySpace c = false :=
  getLast?_dropTrailingWS_ws _ h

theorem removeAll_of_all_ws {l : List Char} (hl : ∀ c ∈ l, pySpace c = true) :
    ∀ fuel, removeAllAux BANNER_SNIPPET.data fuel l = l := by
  induction l with
  | nil => intro fuel; cases fuel <;> rfl
  | cons a l ih =>
    intro fuel
    cases fuel with
    | zero => rfl
    | succ n =>
      have ha : pySpace a = true := hl a (by simp)
      have hne : a ≠ 'A' := by
        intro h; rw [h] at ha; simp [pySpace] at ha
      have hA : BANNER_SNIPPET.data.head? = some 'A' := by decide
      have hlead : leadsWith BANNER_SNIPPET.data (a :: l) = false := by
        cases hp : BANNER_SNIPPET.data with
        | nil => rw [hp] at hA; simp at hA
        | cons p ps =>
          rw [hp] at hA
          simp only [List.head?_cons, Option.some_inj] at hA
          subst hA
          simp only [leadsWith, Bool.and_eq_false_iff]
          left
          exact beq_eq_false_iff_ne.mpr (fun h => hne h.symm)
      simp only [removeAllAux, hlead, Bool.false_eq_true, if_false, List.cons.injEq, true_and]
      exact ih (fun c hc => hl c (by simp [hc])) n

theorem collapseAux_all_ws {l : List Char} (hl : ∀ c ∈ l, pySpace c = true) :
    ∀ b, ∀ c ∈ collapseAux l b, c = ' ' := by
  induction l with
  | nil => intro b c hc; simp [collapseAux] at hc
  | cons a l ih =>
    intro b c hc
    have ha : pySpace a = true := hl a (by simp)
    simp only [collapseAux, if_pos ha] at hc
    have ih2 := ih (fun x hx => hl x (by simp [hx])) true
    cases b with
    | true => exact ih2 c hc
    | false =>
      simp only [Bool.false_eq_true, if_neg] at hc
      rcases List.mem_cons.mp hc with h1 | h1
      · exact h1
      · exact ih2 c h1

theorem stripChars_all_space {l : List Char} (hl : ∀ c ∈ l, c = ' ') :
    stripChars l = [] := by
  unfold stripChars dropWhileWS dropTrailingWS
  have : l.dropWhile pySpace = [] := by
    rw [List.dropWhile_eq_nil_iff]
    intro x hx
    rw [hl x hx]
    decide
  rw [this]
  rfl

theorem removeAll_ws_id {s : String} (hs : ∀ c ∈ s.data, pySpace c = true) :
    removeAll BANNER_SNIPPET s = s := by
  unfold removeAll
  rw [removeAll_of_all_ws hs]

theorem clean_text_all_ws {s : String} (hs : ∀ c ∈ s.data, pySpace c = true) :
    clean_text (some s) = none := by
  by_cases h0 : s = ""
  · subst h0; decide
  · have h2 : (⟨stripChars (collapseAux (removeAll BANNER_SNIPPET s).data false)⟩ : String) = "" := by
      rw [removeAll_ws_id hs, stripChars_all_space (collapseAux_all_ws hs false)]
    simp only [clean_text]
    rw [if_neg h0, if_pos h2]

/- ===================== claims ===================== -/

/-- Claim C7: `clean_text` returns `None` for a `None`, empty or
whitespace-only input; it maps `"  A\n\nB  "` to `"A B"`; and every
returned string is non-empty, contains no whitespace other than single
spaces, never has two adjacent whitespace characters, and neither starts
nor ends with whitespace (the banner snippet itself normalises to
`None`, covering inputs that reduce to nothing after banner removal). -/
theorem clean_text_spec :
    clean_text none = none ∧
    clean_text (some "") = none ∧
    clean_text (some "  A\n\nB  ") = some "A B" ∧
    clean_text (some BANNER_SNIPPET) = none ∧
    (∀ s : String, (∀ c ∈ s.data, pySpace c = true) → clean_text (some s) = none) ∧
    (∀ s t : String, clean_text (some s) = some t →
      t ≠ "" ∧
      (∀ c ∈ t.data, pySpace c = true → c = ' ') ∧
      t.data.Chain' (fun x y => ¬(pySpace x = true ∧ pySpace y = true)) ∧
      (∀ c, t.data.head? = some c → pySpace c = false) ∧
      (∀ c, t.data.getLast? = some c → pySpace c = false)) := by
  refine ⟨rfl, by decide, by decide, by decide, ?_, ?_⟩
  · intro s hs
    exact clean_text_all_ws hs
  · intro s t h
    have he := clean_text_some_eq h
    have hdata : t.data = stripChars (collapseAux (removeAll BANNER_SNIPPET s).data false) := by
      rw [he]
    refine ⟨clean_text_some_ne_empty h, ?_, ?_, ?_, ?_⟩
    · intro c hc hws
      rw [hdata] at hc
      exact mem_collapseAux _ false (mem_stripChars hc) hws
    · rw [hdata]
      exact chain'_stripChars (fun a b hab h2 => hab ⟨h2.2, h2.1⟩) (chain'_collapseAux _ false)
    · intro c hc
      rw [hdata] at hc
      exact head?_stripChars_ws hc
    · intro c hc
      rw [hdata] at hc
      exact getLast?_stripChars_ws hc

/-- Witness for C7 at concrete inputs: the spec example and a
whitespace-only string. -/
theorem clean_text_spec_witness :
    clean_text (some "  A\n\nB  ") = some "A B" ∧
    clean_text (some " \t ") = none ∧
    ("A B" : String) ≠ "" :=
  ⟨clean_text_spec.2.2.1,
   clean_text_spec.2.2.2.2.1 " \t " (by decide),
   (clean_text_spec.2.2.2.2.2 "  A\n\nB  " "A B" clean_text_spec.2.2.1).1⟩

theorem nameCandidate_ne {r : Option String} {t : String}
    (h : nameCandidate r = some t) : t ≠ "" := by
  match r with
  | none => simp [nameCandidate] at h
  | some s =>
    cases hc : clean_text (some s) with
    | none => simp [nameCandidate, hc] at h
    | some u =>
      simp only [nameCandidate, hc] at h
      split at h
      · injection h with h2
        rw [← h2]
        exact clean_text_some_ne_empty hc
      · exact Option.noConfusion h

theorem get_name_ne {p : TitleSources} {t : String}
    (h : get_event_name_from_details_page p = some t) : t ≠ "" := by
  unfold get_event_name_from_details_page at h
  cases h1 : nameCandidate p.dataLabelEventName with
  | some u =>
    rw [h1] at h
    injection h with h2
    rw [← h2]
    exact nameCandidate_ne h1
  | none =>
    rw [h1] at h
    cases h2 : nameCandidate p.h3Title with
    | some u =>
      rw [h2] at h
      injection h with h3
      rw [← h3]
      exact nameCandidate_ne h2
    | none =>
      rw [h2] at h
      exact nameCandidate_ne h

/-- Claim C4: the produced event name is never empty: it is the
details-page title when one is found, otherwise the normalised list-row
label, and the sentinel `"Unknown Event Name"` when both are absent or
normalise to nothing. -/
theorem event_name_fallback (p : TitleSources) (lr : String) :
    extract_event_name p lr =
      (match get_event_name_from_details_page p with
       | some t => t
       | none =>
         match clean_text (some lr) with
         | some s => s
         | none => "Unknown Event Name") ∧
    extract_event_name p lr ≠ "" := by
  cases hg : get_event_name_from_details_page p with
  | some t =>
    have ht := get_name_ne hg
    constructor
    · simp [extract_event_name, hg, ht]
    · simp [extract_event_name, hg, ht]
  | none =>
    cases hc : clean_text (some lr) with
    | some s =>
      have hs := clean_text_some_ne_empty hc
      constructor
      · simp [extract_event_name, hg, hc, hs]
      · simp [extract_event_name, hg, hc, hs]
    | none =>
      constructor
      · simp [extract_event_name, hg, hc]
      · simp only [extract_event_name, hg, hc]
        decide

/-- Claim C5: the label lookup returns `None` exactly when the driver
finds no following element, the candidate text normalises to nothing, the
normalised text is itself a recognised label, or it begins with a
different recognised label; in every other case it returns the normalised
text.  In particular a `"Format/Type"` node following `"Dept"` yields
`None`. -/
theorem find_value_by_label_spec (label : String) (cand : Option String) :
    (find_value_by_label label cand = none ↔
      cand = none ∨
      (∃ raw, cand = some raw ∧ clean_text (some raw) = none) ∨
      (∃ raw txt, cand = some raw ∧ clean_text (some raw) = some txt ∧
        (is_label txt = true ∨
         ∃ lab ∈ LABELS, lab ≠ label ∧ pyStartsWith txt lab = true))) ∧
    (∀ raw txt, cand = some raw → clean_text (some raw) = some txt →
      is_label txt = false →
      (∀ lab ∈ LABELS, lab ≠ label → pyStartsWith txt lab = false) →
      find_value_by_label label cand = some txt) ∧
    find_value_by_label "Dept" (some "Format/Type") = none := by
  refine ⟨?_, ?_, by decide⟩
  · cases cand with
    | none => simp [find_value_by_label]
    | some raw =>
      cases hc : clean_text (some raw) with
      | none =>
        simp only [find_value_by_label, hc]
        exact iff_of_true trivial (Or.inr (Or.inl ⟨raw, rfl, hc⟩))
      | some txt =>
        simp only [find_value_by_label, hc]
        by_cases hl : is_label txt = true
        · rw [if_pos hl]
          exact iff_of_true rfl (Or.inr (Or.inr ⟨raw, txt, rfl, hc, Or.inl hl⟩))
        · rw [if_neg hl]
          by_cases ha : LABELS.any (fun lab => (lab != label) && pyStartsWith txt lab) = true
          · rw [if_pos ha]
            obtain ⟨lab, hmem, hp⟩ := List.any_eq_true.mp ha
            rw [Bool.and_eq_true, bne_iff_ne] at hp
            exact iff_of_true rfl
              (Or.inr (Or.inr ⟨raw, txt, rfl, hc, Or.inr ⟨lab, hmem, hp.1, hp.2⟩⟩))
          · rw [if_neg ha]
            refine iff_of_false (by simp) ?_
            rintro (h | ⟨raw2, h1, h2⟩ | ⟨raw2, txt2, h1, h2, h3⟩)
            · exact Option.noConfusion h
            · injection h1 with h1e
              rw [← h1e] at h2
              rw [hc] at h2
              exact Option.noConfusion h2
            · injection h1 with h1e
              rw [← h1e] at h2
              rw [hc] at h2
              injection h2 with h2e
              subst h2e
              rcases h3 with h3 | ⟨lab, hmem, hne, hsw⟩
              · exact hl h3
              · refine ha (List.any_eq_true.mpr ⟨lab, hmem, ?_⟩)
                rw [Bool.and_eq_true]
                exact ⟨bne_iff_ne.mpr hne, hsw⟩
  · intro raw txt hcand hct hlab hsw
    subst hcand
    simp only [find_value_by_label, hct]
    rw [if_neg (by rw [hlab]; exact Bool.false_ne_true)]
    rw [if_neg ?_]
    intro hany
    obtain ⟨lab, hmem, hp⟩ := List.any_eq_true.mp hany
    rw [Bool.and_eq_true, bne_iff_ne] at hp
    exact absurd hp.2 (by rw [hsw lab hmem hp.1]; exact Bool.false_ne_true)

/-- Witness for C5: the spec example `"Dept"` followed by the value node
`"Judicial Branch"` resolves to `"Judicial Branch"`. -/
theorem find_value_by_label_spec_witness :
    find_value_by_label "Dept" (some "Judicial Branch") = some "Judicial Branch" :=
  (find_value_by_label_spec "Dept" (some "Judicial Branch")).2.1
    "Judicial Branch" "Judicial Branch" rfl (by decide) (by decide) (by decide)

/- ========== supporting lemmas: label values and digit runs ========== -/

theorem mem_takeWhile_prop {α : Type} {p : α → Bool} :
    ∀ (l : List α) (c : α), c ∈ l.takeWhile p → p c = true := by
  intro l
  induction l with
  | nil => intro c h; simp at h
  | cons a l ih =>
    intro c h
    by_cases ha : p a = true
    · rw [List.takeWhile_cons_of_pos ha] at h
      rcases List.mem_cons.mp h with h1 | h1
      · rw [h1]; exact ha
      · exact ih c h1
    · rw [List.takeWhile_cons_of_neg ha] at h
      simp at h

theorem head?_dropWhile_prop {α : Type} {p : α → Bool} {c : α} :
    ∀ l : List α, (l.dropWhile p).head? = some c → p c = false := by
  intro l
  induction l with
  | nil => intro h; simp at h
  | cons a l ih =>
    intro h
    by_cases ha : p a = true
    · rw [List.dropWhile_cons_of_pos ha] at h
      exact ih h
    · rw [List.dropWhile_cons_of_neg ha] at h
      simp only [List.head?_cons, Option.some_inj] at h
      rw [← h]
      exact Bool.of_not_eq_true ha

theorem firstDigitRun_some_spec :
    ∀ (l d : List Char), firstDigitRun l = some d →
      d ≠ [] ∧ (∀ c ∈ d, c.isDigit = true) ∧
      ∃ pre post, l = pre ++ d ++ post ∧ (∀ c ∈ pre, c.isDigit = false) ∧
        (∀ c, post.head? = some c → c.isDigit = false) := by
  intro l
  induction l with
  | nil => intro d h; simp [firstDigitRun] at h
  | cons a l ih =>
    intro d h
    by_cases ha : a.isDigit = true
    · simp only [firstDigitRun, ha, if_true, Option.some_inj] at h
      subst h
      refine ⟨by simp, ?_, [], l.dropWhile Char.isDigit, ?_, by simp, ?_⟩
      · intro c hc
        rcases List.mem_cons.mp hc with h1 | h1
        · rw [h1]; exact ha
        · exact mem_takeWhile_prop l c h1
      · simp [List.takeWhile_append_dropWhile]
      · intro c hc
        exact head?_dropWhile_prop l hc
    · simp only [firstDigitRun, ha, Bool.false_eq_true, if_false] at h
      obtain ⟨hne, hdig, pre, post, heq, hpre, hpost⟩ := ih d h
      refine ⟨hne, hdig, a :: pre, post, by rw [heq]; rfl, ?_, hpost⟩
      intro c hc
      rcases List.mem_cons.mp hc with h1 | h1
      · rw [h1]; exact Bool.of_not_eq_true ha
      · exact hpre c h1

theorem firstDigitRun_none_spec :
    ∀ l : List Char, firstDigitRun l = none → ∀ c ∈ l, c.isDigit = false := by
  intro l
  induction l with
  | nil => intro _ c hc; simp at hc
  | cons a l ih =>
    intro h c hc
    by_cases ha : a.isDigit = true
    · simp [firstDigitRun, ha] at h
    · simp only [firstDigitRun, ha, Bool.false_eq_true, if_false] at h
      rcases List.mem_cons.mp hc with h1 | h1
      · rw [h1]; exact Bool.of_not_eq_true ha
      · exact ih h c h1

theorem mem_pyStrip {c : Char} {s : String} (h : c ∈ (pyStrip s).data) : c ∈ s.data :=
  mem_stripChars h

theorem mem_dropTrailingColons {c : Char} {s : String}
    (h : c ∈ (dropTrailingColons s).data) : c ∈ s.data := by
  unfold dropTrailingColons at h
  rw [List.mem_reverse] at h
  have h2 := (List.dropWhile_sublist _).mem h
  rw [List.mem_reverse] at h2
  exact h2

theorem digit_list_not_label {d : List Char}
    (hdig : ∀ c ∈ d, c.isDigit = true) : is_label (⟨d⟩ : String) = false := by
  have key : ∀ (lab : String) (ch : Char), ch.isDigit = false → ch ∈ lab.data →
      dropTrailingColons (pyStrip (⟨d⟩ : String)) = lab → False := by
    intro lab ch hch hmem heq
    rw [← heq] at hmem
    have hin : ch ∈ d := mem_pyStrip (mem_dropTrailingColons hmem)
    rw [hdig ch hin] at hch
    exact Bool.noConfusion hch
  simp only [is_label]
  rw [List.any_eq_false]
  intro lab hlab
  simp only [LABELS] at hlab
  fin_cases hlab
  · rw [show dropTrailingColons "Event ID" = "Event ID" from by decide]
    intro hbeq
    exact key "Event ID" 'E' (by decide) (by decide) (beq_iff_eq.mp hbeq)
  · rw [show dropTrailingColons "Dept" = "Dept" from by decide]
    intro hbeq
    exact key "Dept" 'D' (by decide) (by decide) (beq_iff_eq.mp hbeq)
  · rw [show dropTrailingColons "Dept:" = "Dept" from by decide]
    intro hbeq
    exact key "Dept" 'D' (by decide) (by decide) (beq_iff_eq.mp hbeq)
  · rw [show dropTrailingColons "Department" = "Department" from by decide]
    intro hbeq
    exact key "Department" 'D' (by decide) (by decide) (beq_iff_eq.mp hbeq)
  · rw [show dropTrailingColons "Format/Type" = "Format/Type" from by decide]
    intro hbeq
    exact key "Format/Type" 'F' (by decide) (by decide) (beq_iff_eq.mp hbeq)
  · rw [show dropTrailingColons "Format/Type:" = "Format/Type" from by decide]
    intro hbeq
    exact key "Format/Type" 'F' (by decide) (by decide) (beq_iff_eq.mp hbeq)
  · rw [show dropTrailingColons "Event Version" = "Event Version" from by decide]
    intro hbeq
    exact key "Event Version" 'E' (by decide) (by decide) (beq_iff_eq.mp hbeq)
  · rw [show dropTrailingColons "Published Date" = "Published Date" from by decide]
    intro hbeq
    exact key "Published Date" 'P' (by decide) (by decide) (beq_iff_eq.mp hbeq)
  · rw [show dropTrailingColons "Event End Date" = "Event End Date" from by decide]
    intro hbeq
    exact key "Event End Date" 'E' (by decide) (by decide) (beq_iff_eq.mp hbeq)
  · rw [show dropTrailingColons "Event End Date:" = "Event End Date" from by decide]
    intro hbeq
    exact key "Event End Date" 'E' (by decide) (by decide) (beq_iff_eq.mp hbeq)

theorem find_value_some_props {label : String} {c : Option String} {v : String}
    (h : find_value_by_label label c = some v) :
    is_label v = false ∧ v ≠ "" := by
  match c with
  | none => simp [find_value_by_label] at h
  | some raw =>
    cases hc : clean_text (some raw) with
    | none => simp [find_value_by_label, hc] at h
    | some txt =>
      simp only [find_value_by_label, hc] at h
      split at h
      · exact Option.noConfusion h
      · split at h
        · exact Option.noConfusion h
        · next hlab _ =>
          injection h with h2
          subst h2
          exact ⟨Bool.of_not_eq_true hlab, clean_text_some_ne_empty hc⟩

theorem elv_value_not_label {label key : String} {c : Option String} {v : String}
    (hf : find_value_by_label label c = some v) :
    is_label (elv_value key v) = false := by
  unfold elv_value
  split
  · cases hd : firstDigitRun v.data with
    | some d => exact digit_list_not_label (firstDigitRun_some_spec v.data d hd).2.1
    | none => exact (find_value_some_props hf).1
  · exact (find_value_some_props hf).1

theorem elv_step_none {p : DetailPage} {acc : List (String × String)}
    {lk : String × String}
    (hf : find_value_by_label lk.1 (p.following lk.1) = none) :
    elv_step p acc lk = acc := by
  unfold elv_step
  rw [hf]
  split <;> rfl

theorem elv_step_some {p : DetailPage} {acc : List (String × String)}
    {lk : String × String} {v : String}
    (hf : find_value_by_label lk.1 (p.following lk.1) = some v) :
    elv_step p acc lk =
      if (lk.2 == "Dept" && acc.any (fun kv => kv.1 == "Dept")) = true then acc
      else if (acc.any fun kv => kv.1 == lk.2) = true then acc
      else acc ++ [(lk.2, elv_value lk.2 v)] := by
  unfold elv_step
  rw [hf]

theorem mem_elv_step {p : DetailPage} {acc : List (String × String)}
    {x : String × String} (s : String × String) (hx : x ∈ acc) :
    x ∈ elv_step p acc s := by
  cases hf : find_value_by_label s.1 (p.following s.1) with
  | none => rw [elv_step_none hf]; exact hx
  | some v =>
    rw [elv_step_some hf]
    split
    · exact hx
    · split
      · exact hx
      · exact List.mem_append_left _ hx

theorem elv_foldl_mem {p : DetailPage} :
    ∀ (steps : List (String × String)) (acc : List (String × String))
      (x : String × String), x ∈ acc → x ∈ List.foldl (elv_step p) acc steps := by
  intro steps
  induction steps with
  | nil => intro acc x hx; simpa using hx
  | cons s rest ih =>
    intro acc x hx
    rw [List.foldl_cons]
    exact ih (elv_step p acc s) x (mem_elv_step s hx)

theorem elv_step_keys {p : DetailPage} {acc : List (String × String)}
    {s : String × String} {k : String} (hs : s.2 ≠ k)
    (hacc : acc.any (fun kv => kv.1 == k) = false) :
    (elv_step p acc s).any (fun kv => kv.1 == k) = false := by
  cases hf : find_value_by_label s.1 (p.following s.1) with
  | none => rw [elv_step_none hf]; exact hacc
  | some v =>
    rw [elv_step_some hf]
    split
    · exact hacc
    · split
      · exact hacc
      · simp [hacc, beq_eq_false_iff_ne.mpr hs]

theorem elv_foldl_keys {p : DetailPage} {k : String} :
    ∀ (steps : List (String × String)) (acc : List (String × String)),
      (∀ lk ∈ steps, lk.2 ≠ k) → acc.any (fun kv => kv.1 == k) = false →
      (List.foldl (elv_step p) acc steps).any (fun kv => kv.1 == k) = false := by
  intro steps
  induction steps with
  | nil => intro acc _ hacc; simpa using hacc
  | cons s rest ih =>
    intro acc hst hacc
    rw [List.foldl_cons]
    exact ih (elv_step p acc s) (fun lk hlk => hst lk (by simp [hlk]))
      (elv_step_keys (hst s (by simp)) hacc)

theorem elv_step_adds {p : DetailPage} {acc : List (String × String)}
    {lk : String × String} {v : String}
    (hf : find_value_by_label lk.1 (p.following lk.1) = some v)
    (hkd : lk.2 ≠ "Dept")
    (hkey : acc.any (fun kv => kv.1 == lk.2) = false) :
    elv_step p acc lk = acc ++ [(lk.2, elv_value lk.2 v)] := by
  rw [elv_step_some hf]
  rw [if_neg (by rw [beq_eq_false_iff_ne.mpr hkd, Bool.false_and]; exact Bool.false_ne_true)]
  rw [if_neg (by rw [hkey]; exact Bool.false_ne_true)]

theorem elv_inv_step {p : DetailPage} {acc : List (String × String)}
    (s : String × String)
    (hacc : ∀ kv ∈ acc, is_label kv.2 = false ∨
      (kv.1 = "Dept" ∧ clean_text p.deptSpan = some kv.2)) :
    ∀ kv ∈ elv_step p acc s, is_label kv.2 = false ∨
      (kv.1 = "Dept" ∧ clean_text p.deptSpan = some kv.2) := by
  cases hf : find_value_by_label s.1 (p.following s.1) with
  | none => rw [elv_step_none hf]; exact hacc
  | some v =>
    rw [elv_step_some hf]
    split
    · exact hacc
    · split
      · exact hacc
      · intro kv hkv
        rcases List.mem_append.mp hkv with h1 | h1
        · exact hacc kv h1
        · rcases List.mem_singleton.mp h1 with rfl
          exact Or.inl (elv_value_not_label hf)

theorem elv_foldl_inv {p : DetailPage} :
    ∀ (steps : List (String × String)) (acc : List (String × String)),
      (∀ kv ∈ acc, is_label kv.2 = false ∨
        (kv.1 = "Dept" ∧ clean_text p.deptSpan = some kv.2)) →
      ∀ kv ∈ List.foldl (elv_step p) acc steps, is_label kv.2 = false ∨
        (kv.1 = "Dept" ∧ clean_text p.deptSpan = some kv.2) := by
  intro steps
  induction steps with
  | nil => intro acc hacc; simpa using hacc
  | cons s rest ih =>
    intro acc hacc
    rw [List.foldl_cons]
    exact ih (elv_step p acc s) (elv_inv_step s hacc)

/-- Claim C6 counterexample: on a details page whose structural
`data-if-label` department element carries the text `"Format/Type"`, the
produced details mapping stores `"Format/Type"` -- a recognised label --
as the `Dept` value, because the structural path performs no label
guard. -/
theorem details_label_value_counterexample :
    ("Dept", "Format/Type") ∈ extract_label_values cexPage ∧
    is_label "Format/Type" = true := by decide

/-- Claim C6 as amended: every value stored in the details mapping is
not a recognised label, except possibly the `Dept` value obtained from
the structural `data-if-label` path, which is stored without the guard. -/
theorem details_label_value_amended (p : DetailPage) :
    ∀ kv ∈ extract_label_values p,
      is_label kv.2 = false ∨
      (kv.1 = "Dept" ∧ clean_text p.deptSpan = some kv.2) := by
  unfold extract_label_values
  apply elv_foldl_inv
  cases hd : clean_text p.deptSpan with
  | none => intro kv hkv; simp at hkv
  | some v =>
    intro kv hkv
    rcases List.mem_singleton.mp hkv with rfl
    exact Or.inr ⟨rfl, rfl⟩

/-- Witness for the amended C6 at a concrete page: the stored
`Event Version` value `"7"` is not a label. -/
theorem details_label_value_amended_witness :
    ("Event Version", "7") ∈ extract_label_values evPage ∧
    (is_label "7" = false ∨
      ("Event Version" = "Dept" ∧ clean_text evPage.deptSpan = some "7")) :=
  ⟨by decide, details_label_value_amended evPage ("Event Version", "7") (by decide)⟩

/-- Claim C10: when the resolved `Event Version` value contains a digit,
only its first maximal digit run is stored; when it contains no digit at
all, the full normalised value is stored unchanged -- the entry is
neither dropped nor emptied. -/
theorem event_version_digits (p : DetailPage) (v : String)
    (h : find_value_by_label "Event Version" (p.following "Event Version") = some v) :
    (∀ d, firstDigitRun v.data = some d →
      ("Event Version", (⟨d⟩ : String)) ∈ extract_label_values p ∧
      d ≠ [] ∧ (∀ c ∈ d, c.isDigit = true) ∧
      ∃ pre post, v.data = pre ++ d ++ post ∧ (∀ c ∈ pre, c.isDigit = false) ∧
        (∀ c, post.head? = some c → c.isDigit = false)) ∧
    (firstDigitRun v.data = none →
      ("Event Version", v) ∈ extract_label_values p ∧ v ≠ "" ∧
      ∀ c ∈ v.data, c.isDigit = false) := by
  have hmem : ("Event Version", elv_value "Event Version" v) ∈ extract_label_values p := by
    have hsplit : label_map =
        [("Event ID", "Event ID"), ("Dept:", "Dept"), ("Dept", "Dept"),
         ("Department", "Dept"), ("Format/Type:", "Format/Type"),
         ("Format/Type", "Format/Type")] ++
        ("Event Version", "Event Version") ::
        [("Published Date", "Published Date"),
         ("Event End Date:", "Event End Date"),
         ("Event End Date", "Event End Date")] := rfl
    unfold extract_label_values
    rw [hsplit, List.foldl_append, List.foldl_cons]
    have hbase : (match clean_text p.deptSpan with
        | some v => [("Dept", v)]
        | none => ([] : List (String × String))).any
          (fun kv => kv.1 == "Event Version") = false := by
      cases hd : clean_text p.deptSpan <;> simp
    have hkeyPre := elv_foldl_keys (p := p) (k := "Event Version")
      [("Event ID", "Event ID"), ("Dept:", "Dept"), ("Dept", "Dept"),
       ("Department", "Dept"), ("Format/Type:", "Format/Type"),
       ("Format/Type", "Format/Type")] _ (by decide) hbase
    rw [elv_step_adds h (by decide) hkeyPre]
    apply elv_foldl_mem
    exact List.mem_append_right _ (by simp)
  constructor
  · intro d hd
    have hv : elv_value "Event Version" v = (⟨d⟩ : String) := by
      unfold elv_value
      rw [if_pos (by decide), hd]
    rw [hv] at hmem
    obtain ⟨hne, hdig, pre, post, heq, hpre, hpost⟩ := firstDigitRun_some_spec v.data d hd
    exact ⟨hmem, hne, hdig, pre, post, heq, hpre, hpost⟩
  · intro hd
    have hv : elv_value "Event Version" v = v := by
      unfold elv_value
      rw [if_pos (by decide), hd]
    rw [hv] at hmem
    exact ⟨hmem, (find_value_some_props h).2, firstDigitRun_none_spec v.data hd⟩

/-- Witness for C10: on the fixture page the value `"Version 7.2"`
resolves and the stored entry is `"7"`. -/
theorem event_version_digits_witness :
    find_value_by_label "Event Version" (evPage.following "Event Version") =
      some "Version 7.2" ∧
    ("Event Version", "7") ∈ extract_label_values evPage ∧
    firstDigitRun "Version 7.2".data = some ['7'] :=
  ⟨by decide,
   (((event_version_digits evPage "Version 7.2" (by decide)).1) ['7'] (by decide)).1,
   by decide⟩

/- ========== supporting lemmas: attachments ========== -/

theorem mem_att_step {acc : List String} {x : String} (r : Option String)
    (hx : x ∈ acc) : x ∈ att_step acc r := by
  cases r with
  | none => exact hx
  | some raw =>
    simp only [att_step]
    split
    · exact List.mem_append_left _ hx
    · exact hx

theorem att_step_mem_self {acc : List String} {raw : String}
    (h1 : pyStrip raw ≠ "") (h2 : pyStrip raw ≠ "#") :
    pyStrip raw ∈ att_step acc (some raw) := by
  simp only [att_step]
  split
  · exact List.mem_append_right _ (by simp)
  · next hcond =>
    have ha : (pyStrip raw != "") = true := bne_iff_ne.mpr h1
    have hb : (pyStrip raw != "#") = true := bne_iff_ne.mpr h2
    by_cases hcc : acc.contains (pyStrip raw) = true
    · exact List.mem_of_elem_eq_true hcc
    · exfalso
      apply hcond
      have hcf : acc.contains (pyStrip raw) = false := Bool.of_not_eq_true hcc
      rw [ha, hb, hcf]
      rfl

theorem att_step_inv {acc : List String} (r : Option String)
    (hnd : acc.Nodup) (he : "" ∉ acc) (hh : "#" ∉ acc) :
    (att_step acc r).Nodup ∧ "" ∉ att_step acc r ∧ "#" ∉ att_step acc r := by
  cases r with
  | none => exact ⟨hnd, he, hh⟩
  | some raw =>
    simp only [att_step]
    split
    · next hcond =>
      rw [Bool.and_eq_true, Bool.and_eq_true] at hcond
      obtain ⟨⟨hne0, hnh0⟩, hnc0⟩ := hcond
      have hne : pyStrip raw ≠ "" := bne_iff_ne.mp hne0
      have hnh : pyStrip raw ≠ "#" := bne_iff_ne.mp hnh0
      have hnm : pyStrip raw ∉ acc := by
        simp only [Bool.not_eq_true'] at hnc0
        simp at hnc0
        exact hnc0
      refine ⟨?_, ?_, ?_⟩
      · rw [List.nodup_append]
        exact ⟨hnd, List.nodup_singleton _, by
          intro a hmem hmem2
          rcases List.mem_singleton.mp hmem2 with rfl
          exact hnm hmem⟩
      · intro hmem
        rcases List.mem_append.mp hmem with hm | hm
        · exact he hm
        · exact hne (List.mem_singleton.mp hm).symm
      · intro hmem
        rcases List.mem_append.mp hmem with hm | hm
        · exact hh hm
        · exact hnh (List.mem_singleton.mp hm).symm
    · exact ⟨hnd, he, hh⟩

theorem att_foldl_inv :
    ∀ (rows : List (Option String)) (acc : List String),
      acc.Nodup → "" ∉ acc → "#" ∉ acc →
      (rows.foldl att_step acc).Nodup ∧ "" ∉ rows.foldl att_step acc ∧
        "#" ∉ rows.foldl att_step acc := by
  intro rows
  induction rows with
  | nil => intro acc h1 h2 h3; exact ⟨h1, h2, h3⟩
  | cons r rest ih =>
    intro acc h1 h2 h3
    rw [List.foldl_cons]
    obtain ⟨g1, g2, g3⟩ := att_step_inv r h1 h2 h3
    exact ih (att_step acc r) g1 g2 g3

theorem att_foldl_mem :
    ∀ (rows : List (Option String)) (acc : List String) (x : String),
      x ∈ acc → x ∈ rows.foldl att_step acc := by
  intro rows
  induction rows with
  | nil => intro acc x hx; exact hx
  | cons r rest ih =>
    intro acc x hx
    rw [List.foldl_cons]
    exact ih (att_step acc r) x (mem_att_step r hx)

/-- Claim C8: the attachment harvester never records an empty href, the
`#` placeholder, or a duplicate, and every row whose popup resolves to a
valid href contributes it (exactly once, by the no-duplicates part). -/
theorem get_attachments_spec (rows : List (Option String)) :
    (get_attachments rows).Nodup ∧
    "" ∉ get_attachments rows ∧
    "#" ∉ get_attachments rows ∧
    (∀ raw, some raw ∈ rows → pyStrip raw ≠ "" → pyStrip raw ≠ "#" →
      pyStrip raw ∈ get_attachments rows) := by
  obtain ⟨h1, h2, h3⟩ := att_foldl_inv rows [] (by simp) (by simp) (by simp)
  refine ⟨h1, h2, h3, ?_⟩
  have main : ∀ (rows2 : List (Option String)) (acc : List String) (raw : String),
      some raw ∈ rows2 → pyStrip raw ≠ "" → pyStrip raw ≠ "#" →
      pyStrip raw ∈ rows2.foldl att_step acc := by
    intro rows2
    induction rows2 with
    | nil => intro acc raw hmem; simp at hmem
    | cons r rest ih =>
      intro acc raw hmem hne hnh
      rw [List.foldl_cons]
      rcases List.mem_cons.mp hmem with h | h
      · rw [← h]
        exact att_foldl_mem rest _ _ (att_step_mem_self hne hnh)
      · exact ih (att_step acc r) raw h hne hnh
  intro raw hmem hne hnh
  exact main rows [] raw hmem hne hnh

/-- Witness for C8: two rows resolving to the same href (one with edge
whitespace), a `#` placeholder row, an empty row and a failed row yield
the single de-duplicated entry. -/
theorem get_attachments_spec_witness :
    get_attachments [some " h ", some "h", some "#", some "", none] = ["h"] ∧
    some "h" ∈ [some " h ", some "h", some "#", some "", none] ∧
    pyStrip "h" ∈ get_attachments [some " h ", some "h", some "#", some "", none] ∧
    (get_attachments [some " h ", some "h", some "#", some "", none]).Nodup :=
  ⟨by decide, by decide,
   (get_attachments_spec [some " h ", some "h", some "#", some "", none]).2.2.2
     "h" (by decide) (by decide) (by decide),
   (get_attachments_spec [some " h ", some "h", some "#", some "", none]).1⟩

/-- Claim C9: the contact-information and pre-bid extractors never return
a mapping containing an empty value: the final cleanup loop deletes every
key whose collected value normalises to nothing and stores the cleaned
(hence non-empty) value otherwise. -/
theorem extractor_values_nonempty (rc : Option ContactRoot) (rp : Option String) :
    (∀ kv ∈ extract_contact_info rc, kv.2 ≠ "") ∧
    (∀ kv ∈ extract_prebid rp, kv.2 ≠ "") := by
  constructor
  · cases rc with
    | none => intro kv hkv; simp [extract_contact_info] at hkv
    | some r =>
      intro kv hkv
      simp only [extract_contact_info] at hkv
      rw [List.mem_filterMap] at hkv
      obtain ⟨kv0, _, hmap⟩ := hkv
      cases hc : clean_text (some kv0.2) with
      | none => rw [hc] at hmap; exact Option.noConfusion hmap
      | some cv =>
        rw [hc] at hmap
        injection hmap with hmap2
        rw [← hmap2]
        exact clean_text_some_ne_empty hc
  · cases rp with
    | none => intro kv hkv; simp [extract_prebid] at hkv
    | some rootText =>
      intro kv hkv
      simp only [extract_prebid] at hkv
      rw [List.mem_filterMap] at hkv
      obtain ⟨kv0, _, hmap⟩ := hkv
      cases hc : clean_text (some kv0.2) with
      | none => rw [hc] at hmap; exact Option.noConfusion hmap
      | some cv =>
        rw [hc] at hmap
        injection hmap with hmap2
        rw [← hmap2]
        exact clean_text_some_ne_empty hc

/-- Witness for C9 at the concrete fixtures: the contact name and the
pre-bid date entries are produced and are non-empty. -/
theorem extractor_values_nonempty_witness :
    ("Contact Name", "Jane Roe") ∈ extract_contact_info contactRootFx ∧
    ("Jane Roe" : String) ≠ "" ∧
    ("Date", "01/02/2026") ∈ extract_prebid prebidRootFx ∧
    ("01/02/2026" : String) ≠ "" :=
  ⟨by decide,
   (extractor_values_nonempty contactRootFx prebidRootFx).1
     ("Contact Name", "Jane Roe") (by decide),
   by decide,
   (extractor_values_nonempty contactRootFx prebidRootFx).2
     ("Date", "01/02/2026") (by decide)⟩

/- ========== supporting lemmas: traversal engine ========== -/

theorem range'_append_1 (s m n : Nat) :
    List.range' s m ++ List.range' (s + m) n = List.range' s (m + n) := by
  have h := List.range'_append s m n 1
  rw [Nat.one_mul] at h
  rw [h, Nat.add_comm]

theorem mem_range'_one {s n m : Nat} : m ∈ List.range' s n ↔ s ≤ m ∧ m < s + n := by
  rw [List.mem_range']
  constructor
  · rintro ⟨i, hi, rfl⟩
    omega
  · intro h
    exact ⟨m - s, by omega, by omega⟩

theorem append_singleton_range' (v : List Nat) (a k : Nat) :
    (v ++ [a]) ++ List.range' (a + 1) k = v ++ List.range' a (k + 1) := by
  rw [List.range'_succ, List.append_assoc]
  rfl

theorem row_loop_closed (s e : Nat) (hs : 1 ≤ s) (_hse : s ≤ e) :
    ∀ (n g : Nat) (v ev : List Nat), g ≤ e →
      row_loop s (some e) 0 n g v ev =
        (min (g + n) e,
         v ++ List.range' (g + 1) (min n (e - g)),
         ev ++ List.range' (max g (s - 1) + 1) (min (g + n) e - max g (s - 1)),
         decide (e - g < n)) := by
  intro n
  induction n with
  | zero =>
    intro g v ev hg
    simp only [row_loop]
    have h1 : min (g + 0) e = g := by omega
    have h2 : min 0 (e - g) = 0 := by omega
    rw [h1, h2]
    have h3 : g - max g (s - 1) = 0 := by omega
    have h4 : decide (e - g < 0) = false := by simp
    rw [h3, h4]
    simp
  | succ n ih =>
    intro g v ev hg
    simp only [row_loop]
    by_cases hge : e ≤ g
    · rw [if_pos (by simp only [reached_end, decide_eq_true_eq]; omega)]
      have h1 : min (g + (n + 1)) e = g := by omega
      have h2 : min (n + 1) (e - g) = 0 := by omega
      rw [h1, h2]
      have h3 : g - max g (s - 1) = 0 := by omega
      have h4 : decide (e - g < n + 1) = true := by
        simp only [decide_eq_true_eq]
        omega
      rw [h3, h4]
      simp
    · rw [if_neg (by simp only [reached_end, decide_eq_true_eq]; omega)]
      rw [if_neg (by simp)]
      by_cases hlt : g + 1 < s
      · rw [if_pos hlt]
        rw [ih (g + 1) (v ++ [g + 1]) ev (by omega)]
        simp only [Prod.mk.injEq]
        refine ⟨by omega, ?_, ?_, ?_⟩
        · rw [append_singleton_range']
          have hc : min n (e - (g + 1)) + 1 = min (n + 1) (e - g) := by omega
          rw [hc]
        · congr 2
          · omega
          · omega
        · rw [decide_eq_decide]
          omega
      · rw [if_neg hlt]
        rw [if_neg (by simp only [past_end, decide_eq_true_eq]; omega)]
        rw [ih (g + 1) (v ++ [g + 1]) (ev ++ [g + 1]) (by omega)]
        simp only [Prod.mk.injEq]
        refine ⟨by omega, ?_, ?_, ?_⟩
        · rw [append_singleton_range']
          have hc : min n (e - (g + 1)) + 1 = min (n + 1) (e - g) := by omega
          rw [hc]
        · have hm : max g (s - 1) = g := by omega
          have hm2 : max (g + 1) (s - 1) = g + 1 := by omega
          rw [hm, hm2, append_singleton_range']
          have hc2 : min (g + 1 + n) e - (g + 1) + 1 = min (g + (n + 1)) e - g := by
            omega
          rw [hc2]
        · rw [decide_eq_decide]
          omega

theorem process_go_closed (s e : Nat) (hs : 1 ≤ s) (hse : s ≤ e) :
    ∀ (pages : List Nat) (pidx g : Nat) (v ev : List Nat), g ≤ e →
      process_all_go 0 0 s (some e) pages pidx g v ev =
        (v ++ List.range' (g + 1) (min pages.sum (e - g)),
         ev ++ List.range' (max g (s - 1) + 1)
           (min (g + pages.sum) e - max g (s - 1))) := by
  intro pages
  induction pages with
  | nil =>
    intro pidx g v ev hg
    simp only [process_all_go, List.sum_nil]
    have h1 : min 0 (e - g) = 0 := by omega
    have h2 : min (g + 0) e - max g (s - 1) = 0 := by omega
    rw [h1, h2]
    simp
  | cons n rest ih =>
    intro pidx g v ev hg
    simp only [process_all_go]
    rw [row_loop_closed s e hs hse n g v ev hg]
    by_cases hstop : e - g < n
    · rw [if_pos (by simp only [decide_eq_true_eq]; omega)]
      simp only [List.sum_cons, Prod.mk.injEq]
      constructor
      · congr 2
        omega
      · congr 2
        omega
    · rw [if_neg (by simp only [decide_eq_true_eq]; omega)]
      rw [if_neg (by simp)]
      have hgn : min (g + n) e = g + n := by omega
      rw [hgn]
      rw [ih (pidx + 1) (g + n) _ _ (by omega)]
      simp only [List.sum_cons, Prod.mk.injEq]
      constructor
      · have hc : min n (e - g) = n := by omega
        have hst : g + n + 1 = (g + 1) + n := by omega
        rw [hc, hst, List.append_assoc, range'_append_1]
        congr 2
        omega
      · have hB : max (g + n) (s - 1) + 1 =
            (max g (s - 1) + 1) + (g + n - max g (s - 1)) := by omega
        rw [hB, List.append_assoc, range'_append_1]
        congr 2
        omega

theorem row_loop_visited (s lim : Nat) (eo : Option Nat) :
    ∀ (n g : Nat) (v ev : List Nat),
      ∃ g2 ev2 st, row_loop s eo lim n g v ev =
        (g2, v ++ List.range' (g + 1) (g2 - g), ev2, st) ∧ g ≤ g2 := by
  intro n
  induction n with
  | zero =>
    intro g v ev
    exact ⟨g, ev, false, by simp [row_loop], Nat.le_refl g⟩
  | succ n ih =>
    intro g v ev
    simp only [row_loop]
    by_cases hre : reached_end eo g = true
    · rw [if_pos hre]
      exact ⟨g, ev, true, by simp, Nat.le_refl g⟩
    · rw [if_neg hre]
      by_cases hlim : lim ≠ 0 ∧ lim ≤ ev.length
      · rw [if_pos hlim]
        exact ⟨g, ev, true, by simp, Nat.le_refl g⟩
      · rw [if_neg hlim]
        by_cases hsk : g + 1 < s
        · rw [if_pos hsk]
          obtain ⟨g2, ev2, st, heq, hle⟩ := ih (g + 1) (v ++ [g + 1]) ev
          refine ⟨g2, ev2, st, ?_, by omega⟩
          rw [heq]
          simp only [Prod.mk.injEq, true_and, and_true]
          rw [append_singleton_range']
          have hc : g2 - (g + 1) + 1 = g2 - g := by omega
          rw [hc]
        · rw [if_neg hsk]
          by_cases hpe : past_end eo (g + 1) = true
          · rw [if_pos hpe]
            refine ⟨g + 1, ev, true, ?_, by omega⟩
            simp only [Prod.mk.injEq, true_and, and_true]
            have h1 : g + 1 - g = 1 := by omega
            rw [h1]
            rfl
          · rw [if_neg hpe]
            obtain ⟨g2, ev2, st, heq, hle⟩ := ih (g + 1) (v ++ [g + 1]) (ev ++ [g + 1])
            refine ⟨g2, ev2, st, ?_, by omega⟩
            rw [heq]
            simp only [Prod.mk.injEq, true_and, and_true]
            rw [append_singleton_range']
            have hc : g2 - (g + 1) + 1 = g2 - g := by omega
            rw [hc]

theorem process_go_visited (mp lim s : Nat) (eo : Option Nat) :
    ∀ (pages : List Nat) (pidx g : Nat) (v ev : List Nat),
      ∃ g2 ev2, process_all_go mp lim s eo pages pidx g v ev =
        (v ++ List.range' (g + 1) (g2 - g), ev2) ∧ g ≤ g2 := by
  intro pages
  induction pages with
  | nil =>
    intro pidx g v ev
    exact ⟨g, ev, by simp [process_all_go], Nat.le_refl g⟩
  | cons n rest ih =>
    intro pidx g v ev
    simp only [process_all_go]
    obtain ⟨g2, ev2, st, heq, hle⟩ := row_loop_visited s lim eo n g v ev
    rw [heq]
    by_cases hst : st = true
    · rw [if_pos hst]
      exact ⟨g2, ev2, rfl, hle⟩
    · rw [if_neg hst]
      by_cases hmp : mp ≠ 0 ∧ mp ≤ pidx + 1
      · rw [if_pos hmp]
        exact ⟨g2, ev2, rfl, hle⟩
      · rw [if_neg hmp]
        obtain ⟨g3, ev3, heq3, hle3⟩ :=
          ih (pidx + 1) g2 (v ++ List.range' (g + 1) (g2 - g)) ev2
        refine ⟨g3, ev3, ?_, by omega⟩
        rw [heq3]
        have h1 : g2 + 1 = (g + 1) + (g2 - g) := by omega
        rw [h1, List.append_assoc, range'_append_1]
        have h2 : (g2 - g) + (g3 - g2) = g3 - g := by omega
        rw [h2]

theorem row_loop_full (n : Nat) :
    ∀ (g : Nat) (v ev : List Nat),
      row_loop 1 none 0 n g v ev =
        (g + n, v ++ List.range' (g + 1) n, ev ++ List.range' (g + 1) n, false) := by
  induction n with
  | zero =>
    intro g v ev
    simp [row_loop]
  | succ n ih =>
    intro g v ev
    simp only [row_loop]
    rw [if_neg (by simp [reached_end])]
    rw [if_neg (by simp)]
    rw [if_neg (by omega)]
    rw [if_neg (by simp [past_end])]
    rw [ih (g + 1) (v ++ [g + 1]) (ev ++ [g + 1])]
    simp only [Prod.mk.injEq, true_and, and_true]
    exact ⟨by omega, append_singleton_range' v (g + 1) n,
      append_singleton_range' ev (g + 1) n⟩

theorem process_go_full :
    ∀ (pages : List Nat) (pidx g : Nat) (v ev : List Nat),
      process_all_go 0 0 1 none pages pidx g v ev =
        (v ++ List.range' (g + 1) pages.sum, ev ++ List.range' (g + 1) pages.sum) := by
  intro pages
  induction pages with
  | nil =>
    intro pidx g v ev
    simp [process_all_go]
  | cons n rest ih =>
    intro pidx g v ev
    simp only [process_all_go]
    rw [row_loop_full]
    rw [if_neg (by simp)]
    rw [if_neg (by simp)]
    rw [ih (pidx + 1) (g + n) _ _]
    simp only [List.sum_cons, Prod.mk.injEq]
    have h1 : g + n + 1 = (g + 1) + n := by omega
    rw [h1, List.append_assoc, List.append_assoc, range'_append_1]
    exact ⟨rfl, rfl⟩

/-- Claim C1: with no result-count limit and no page cap, the number of
rows for which detail extraction is attempted over a configured range
`[s, e]` equals `min e totalRows - s + 1` when `s ≤ totalRows` and zero
when `s > totalRows`; row `e` itself is still processed (its index
appears among the attempted rows), and reaching `e` cuts off the whole
run -- no later row on any page is attempted. -/
theorem process_all_range_count (pages : List Nat) (s e : Nat)
    (h1 : 1 ≤ s) (h2 : s ≤ e) :
    ((process_all pages 0 0 s (some e)).2.length =
      if s ≤ pages.sum then min e pages.sum - s + 1 else 0) ∧
    (s ≤ pages.sum → e ≤ pages.sum → e ∈ (process_all pages 0 0 s (some e)).2) := by
  have hgo := process_go_closed s e h1 h2 pages 0 0 [] [] (by omega)
  unfold process_all
  rw [hgo]
  simp only [List.nil_append]
  constructor
  · rw [List.length_range']
    by_cases hsp : s ≤ pages.sum
    · rw [if_pos hsp]
      omega
    · rw [if_neg hsp]
      omega
  · intro hsp hep
    rw [mem_range'_one]
    omega

/-- Witness for C1 at the end-to-end scenario of the spec: two pages of
three rows with range `[2, 4]` give three attempted rows and row 4 is
among them. -/
theorem process_all_range_count_witness :
    ((process_all [3, 3] 0 0 2 (some 4)).2.length =
      if 2 ≤ [3, 3].sum then min 4 [3, 3].sum - 2 + 1 else 0) ∧
    4 ∈ (process_all [3, 3] 0 0 2 (some 4)).2 :=
  ⟨(process_all_range_count [3, 3] 2 4 (by decide) (by decide)).1,
   (process_all_range_count [3, 3] 2 4 (by decide) (by decide)).2
     (by decide) (by decide)⟩

/-- Claim C3: the global row counter is incremented exactly once per
encountered row across page boundaries: the trace of indices assigned to
the encountered rows is `[1, 2, ..., k]` for every parameter combination,
and with no range, limit or page cap every row of every page is visited,
the last one receiving index `totalRows` (so the first row of page 2
receives `rowsOnPage1 + 1`, never 1). -/
theorem global_row_index_trace (pages : List Nat) (mp lim s : Nat) (eo : Option Nat) :
    ((process_all pages mp lim s eo).1 =
      List.range' 1 (process_all pages mp lim s eo).1.length) ∧
    (process_all pages 0 0 1 none).1 = List.range' 1 pages.sum := by
  constructor
  · unfold process_all
    obtain ⟨g2, ev2, heq, hle⟩ := process_go_visited mp lim s eo pages 0 0 [] []
    rw [heq]
    simp [List.length_range']
  · unfold process_all
    rw [process_go_full]
    simp

/-- Claim C2 (evidence for the code bug): when two records have been
appended on page 1 and the page-level navigation of page 2 raises (for
example `goto_events_section` times out at line 827, outside the
row-level `try`), the exception escapes `process_all`; `results` in
`main` keeps its initial empty value, so the file written in the
`finally` block is the empty array even though two records had been
collected.  The error payload is the ghost list of the lost records. -/
theorem main_loses_partial_results :
    process_all_fallible [⟨2, true⟩, ⟨0, false⟩] 0 0 1 none = Except.error [1, 2] ∧
    main_results (process_all_fallible [⟨2, true⟩, ⟨0, false⟩] 0 0 1 none) = [] ∧
    ([1, 2] : List Nat) ≠ [] :=
  ⟨rfl, rfl, by decide⟩

end Caleprocure
